import Mathlib

/-!
# Verification of the HumanReadableSeed codec

Shallow embedding of `HumanReadableSeed/HumanReadableSeed.py`:
a codec that turns a token (a sequence of Unicode code points) into a
sequence of words from a wordlist and back.  Tokens are modelled as
`List Nat` (Python code points), bitstreams as `List Bool` (most
significant bit first), and errors as an explicit error type.  The
embedded functions model the `skip_check = True` paths of
`seed_to_human` and `human_to_seed`, i.e. the core conversion without
the optional round-trip self-check.
-/

set_option autoImplicit false

deriving instance DecidableEq for Except

/-- ASCII lower-case letter test, as Python's `str.lower/islower` behaves on
the ASCII range. -/
def pyIsLower (c : Char) : Bool := 97 ≤ c.toNat && c.toNat ≤ 122

/-- ASCII upper-case letter test. -/
def pyIsUpper (c : Char) : Bool := 65 ≤ c.toNat && c.toNat ≤ 90

/-- ASCII cased-character test (Python `str.title` treats a character as
cased iff it is a letter; on the ASCII range these are a-z and A-Z). -/
def pyIsAlpha (c : Char) : Bool := pyIsLower c || pyIsUpper c

/-- Upper-case an ASCII letter, leave anything else unchanged. -/
def asciiUpper (c : Char) : Char :=
  if pyIsLower c then Char.ofNat (c.toNat - 32) else c

/-- Lower-case an ASCII letter, leave anything else unchanged. -/
def asciiLower (c : Char) : Char :=
  if pyIsUpper c then Char.ofNat (c.toNat + 32) else c

/-- Worker for `pyTitle`: the Boolean argument records whether the previous
character was cased, exactly as CPython's `str.title` scans its input. -/
def pyTitleAux : Bool → List Char → List Char
  | _, [] => []
  | prevCased, c :: rest =>
    if pyIsAlpha c then
      (if prevCased then asciiLower c else asciiUpper c) :: pyTitleAux true rest
    else
      c :: pyTitleAux false rest

/-- Python's `str.title()` restricted to the ASCII range: the first letter of
every run of letters is upper-cased and the following letters are
lower-cased.  Used by `__init__` on every wordlist entry and by
`human_to_seed` on every input word. -/
def pyTitle (s : String) : String := String.mk (pyTitleAux false s.data)

/-- `all(ord(char) < 128 for char in word)`: every character of the string is
in the single-byte ASCII range. -/
def strAscii (s : String) : Bool := s.data.all fun c => c.toNat < 128

/-- Python's `<` on strings: lexicographic comparison of code points. -/
def lexLt : List Char → List Char → Bool
  | [], [] => false
  | [], _ :: _ => true
  | _ :: _, [] => false
  | a :: as, b :: bs =>
    if a.toNat < b.toNat then true
    else if b.toNat < a.toNat then false
    else lexLt as bs

/-- Insert a string into a list, before the first element it is `<` than
(Python code-point lexicographic order). -/
def insertStr (s : String) : List String → List String
  | [] => [s]
  | t :: ts => if lexLt s.data t.data then s :: t :: ts else t :: insertStr s ts

/-- Insertion sort on strings in ascending code-point order, modelling
Python's `sorted`. -/
def sortStr : List String → List String
  | [] => []
  | s :: ss => insertStr s (sortStr ss)

/-- The wordlist canonicalization performed by `__init__`: keep only
all-ASCII words, apply `str.title()` to each, deduplicate (`set`) and sort
ascending (`sorted`). -/
def canonicalize (raw : List String) : List String :=
  sortStr (((raw.filter strAscii).map pyTitle).dedup)

/-- Fuel-driven worker for `_compute_chunk_size`: the loop
`while 2**chunk_size < wordlist_size: chunk_size += 1` starting from the
given counter `c`. -/
def chunkSearchF : Nat → Nat → Nat → Nat
  | 0, c, _ => c
  | fuel + 1, c, n => if 2 ^ c < n then chunkSearchF fuel (c + 1) n else c

/-- `_compute_chunk_size`: starting from counter 1, increment while
`2 ^ counter < n` (`n` being the canonicalized wordlist size), then return
`counter - 1`.  Fuel `n` is enough since `n ≤ 2 ^ n`. -/
def compute_chunk_size (n : Nat) : Nat := chunkSearchF n 1 n - 1

/-- Derived chunk width of a raw wordlist when no explicit chunk size is
supplied at construction: `_compute_chunk_size` applied to the size of the
canonicalized wordlist. -/
def derivedChunkWidth (raw : List String) : Nat :=
  compute_chunk_size (canonicalize raw).length

/-- Fuel-driven binary digits of a natural number, most significant bit
first, as Python's `format(n, 'b')` renders it (`0` renders as `"0"`). -/
def binDigitsF : Nat → Nat → List Bool
  | 0, n => [n == 1]
  | fuel + 1, n =>
    if n < 2 then [n == 1] else binDigitsF fuel (n / 2) ++ [n % 2 == 1]

/-- Binary digits of `n`, most significant bit first; `binDigits 0 = [false]`
(Python renders `0` as the single digit `"0"`). -/
def binDigits (n : Nat) : List Bool := binDigitsF n n

/-- Python's `format(n, f'0{w}b')`: the binary digits of `n` left-padded
with zeros to a minimum width `w` (longer than `w` when `n` needs more
digits; never truncated). -/
def pyFormatBin (w : Nat) (n : Nat) : List Bool :=
  List.replicate (w - (binDigits n).length) false ++ binDigits n

/-- Python's `int(bits, 2)` for a bit string given most significant bit
first. -/
def bitsToNat (l : List Bool) : Nat :=
  l.foldl (fun a b => 2 * a + (if b then 1 else 0)) 0

/-- Fuel-driven worker for `chunkify`. -/
def chunkifyF : Nat → Nat → List Bool → List (List Bool)
  | 0, _, _ => []
  | fuel + 1, cs, l =>
    if l.isEmpty then [] else l.take cs :: chunkifyF fuel cs (l.drop cs)

/-- `[bits[i:i+cs] for i in range(0, len(bits), cs)]`: split a bit string
into consecutive chunks of `cs` bits (the last chunk may be shorter).
Assumes `cs ≥ 1` (Python raises `ValueError` on step 0). -/
def chunkify (cs : Nat) (l : List Bool) : List (List Bool) :=
  chunkifyF l.length cs l

/-- Python's `s[:-p]` slice: for `p = 0` this is `s[:0]`, the EMPTY string
(`-0 == 0`); for `p ≥ 1` it drops the last `p` elements. -/
def pySliceNeg (l : List Bool) (p : Nat) : List Bool :=
  if p = 0 then [] else l.take (l.length - p)

/-- The failures the codec can raise (Python raises `ValueError` /
`AssertionError` with the corresponding messages). -/
inductive CodecError where
  /-- Encode input has a code point `≥ 128` at `pos`; carries the offending
  position, its value, and the bits successfully converted so far. -/
  | nonAsciiInput (pos : Nat) (val : Nat) (bitsSoFar : List Bool)
  /-- Decode input has fewer than 2 words. -/
  | tooFewWords
  /-- Decode input contains a word (after `str.title()`) missing from the
  wordlist. -/
  | unknownWord (w : String)
  /-- The first decode word's ordinal index is `≥ 64`. -/
  | paddingLengthOutOfRange (p : Nat)
  deriving DecidableEq, Repr

/-- A constructed `HumanReadableSeed` instance: the canonicalized wordlist
and the chunk size, both immutable after `__init__`. -/
structure HRS where
  wordlist : List String
  chunk_size : Nat
  deriving DecidableEq, Repr

/-- The validation/bit-flattening loop of `seed_to_human`: scan the token's
code points with their index, failing with `nonAsciiInput` at the first
code point `≥ 128` and otherwise appending its 8-bit representation
(`format(ord(char), '08b')`) to the accumulated bit string. -/
def bitsAux (i : Nat) (acc : List Bool) : List Nat → Except CodecError (List Bool)
  | [] => .ok acc
  | c :: rest =>
    if 128 ≤ c then .error (.nonAsciiInput i c acc)
    else bitsAux (i + 1) (acc ++ pyFormatBin 8 c) rest

/-- `seed_to_human` with `skip_check = True`: flatten the token to a
bitstream, append `(chunk_size - len % chunk_size) % chunk_size` zero bits,
split into `chunk_size`-bit chunks, and output the word at ordinal index
`padding_length` followed by the word at each chunk's value.  Wordlist
lookups use `getD` with an (unreached under the construction invariant)
default. -/
def seed_to_human (h : HRS) (token : List Nat) : Except CodecError (List String) :=
  match bitsAux 0 [] token with
  | .error e => .error e
  | .ok bl =>
    let pad := (h.chunk_size - bl.length % h.chunk_size) % h.chunk_size
    let padded := bl ++ List.replicate pad false
    let chunks := chunkify h.chunk_size padded
    .ok (h.wordlist.getD pad "" :: chunks.map fun ch => h.wordlist.getD (bitsToNat ch) "")

/-- The data-word bit concatenation of `human_to_seed`: each word's ordinal
index rendered as `format(index, f'0{chunk_size}b')`, all joined. -/
def dataBits (h : HRS) (ws : List String) : List Bool :=
  (ws.map fun w => pyFormatBin h.chunk_size (h.wordlist.indexOf w)).flatten

/-- `human_to_seed` with `skip_check = True`, on an already-split word list:
reject fewer than 2 words, `str.title()` every word, reject the first word
missing from the wordlist, reject a first-word ordinal index `≥ 64`, then
concatenate the remaining words' fixed-minimum-width bit renderings, apply
the `[:-padding_length]` slice, and read off code points 8 bits at a time
(`chr(int(bits[i:i+8], 2))`; a shorter trailing group is parsed as-is). -/
def human_to_seed (h : HRS) (ws0 : List String) : Except CodecError (List Nat) :=
  if ws0.length < 2 then .error .tooFewWords
  else
    let ws := ws0.map pyTitle
    match ws.find? (fun w => !(h.wordlist.contains w)) with
    | some w => .error (.unknownWord w)
    | none =>
      let p := h.wordlist.indexOf (ws.headD "")
      if 64 ≤ p then .error (.paddingLengthOutOfRange p)
      else .ok ((chunkify 8 (pySliceNeg (dataBits h ws.tail) p)).map bitsToNat)

/-- The toy codec of the spec's concrete scenario: four distinct words and
the derived chunk width 1. -/
def toyCodec1 : HRS := ⟨["A", "B", "C", "D"], 1⟩

/-- A toy codec with the same four words and an explicit chunk width 2
(allowed, since `4 ≥ 2 ^ 2`). -/
def toyCodec2 : HRS := ⟨["A", "B", "C", "D"], 2⟩

example : pyTitle "heLLo worLD" = "Hello World" := by decide
example : binDigits 5 = [true, false, true] := by decide
example : pyFormatBin 8 65 = [false, true, false, false, false, false, false, true] := by decide
example : canonicalize ["b", "a", "éé", "a"] = ["A", "B"] := by decide

/-- The counter search of `_compute_chunk_size` returns the least counter
value `≥ c` whose power of two reaches `n`, provided the fuel suffices. -/
theorem chunkSearchF_spec : ∀ (fuel c n : Nat), n ≤ 2 ^ (c + fuel) →
    n ≤ 2 ^ chunkSearchF fuel c n ∧ c ≤ chunkSearchF fuel c n ∧
      ∀ d, c ≤ d → n ≤ 2 ^ d → chunkSearchF fuel c n ≤ d
  | 0, c, n, h => by
    refine ⟨by simpa [chunkSearchF] using h, ?_, ?_⟩
    · simp [chunkSearchF]
    · intro d hd _
      simpa [chunkSearchF] using hd
  | fuel + 1, c, n, h => by
    simp only [chunkSearchF]
    split
    · rename_i hlt
      have h' : n ≤ 2 ^ (c + 1 + fuel) := by
        have hE : c + 1 + fuel = c + (fuel + 1) := by omega
        rw [hE]; exact h
      obtain ⟨h1, h2, h3⟩ := chunkSearchF_spec fuel (c + 1) n h'
      refine ⟨h1, by omega, fun d hcd hnd => ?_⟩
      have hcd' : c + 1 ≤ d := by
        rcases Nat.lt_or_ge c d with h4 | h4
        · omega
        · exact absurd (le_trans hnd (Nat.pow_le_pow_right (by norm_num) h4)) (by omega)
      exact h3 d hcd' hnd
    · rename_i hge
      exact ⟨by omega, le_rfl, fun d hd _ => hd⟩

/-- `compute_chunk_size n` is `c - 1` where `c` is the least counter value
`≥ 1` with `n ≤ 2 ^ c`. -/
theorem compute_chunk_size_minimal (n : Nat) :
    ∃ c, 1 ≤ c ∧ n ≤ 2 ^ c ∧ (∀ d, 1 ≤ d → n ≤ 2 ^ d → c ≤ d) ∧
      compute_chunk_size n = c - 1 := by
  have hb : n ≤ 2 ^ (1 + n) :=
    le_trans (Nat.le_of_lt (Nat.lt_two_pow n)) (Nat.pow_le_pow_right (by norm_num) (by omega))
  obtain ⟨h1, h2, h3⟩ := chunkSearchF_spec n 1 n hb
  exact ⟨chunkSearchF n 1 n, h2, h1, h3, rfl⟩

/-- C5.  Chunk-width derivation as implemented: the automatic derivation is
the counter search starting at 1 that stops at the least `c ≥ 1` with
`2 ^ c ≥ N` (the canonicalized wordlist size) and returns `c - 1`; in
particular for `N = 100` it returns 6. -/
theorem chunk_width_derivation_as_implemented :
    (∀ raw : List String, ∃ c, 1 ≤ c ∧ (canonicalize raw).length ≤ 2 ^ c ∧
      (∀ d, 1 ≤ d → (canonicalize raw).length ≤ 2 ^ d → c ≤ d) ∧
      derivedChunkWidth raw = c - 1) ∧
    compute_chunk_size 100 = 6 :=
  ⟨fun raw => compute_chunk_size_minimal (canonicalize raw).length, by decide⟩

/-- Witness for C5 at the concrete size 100. -/
theorem chunk_width_derivation_as_implemented_witness :
    compute_chunk_size 100 = 6 :=
  chunk_width_derivation_as_implemented.2

/-- C4, counterexample.  For the raw wordlist `["a","b","c","d"]` the
canonicalized size is `N = 4` and the derived chunk width is 1, yet
`2 ^ 2 ≤ 4`: the derived width is NOT the largest `w` with `2 ^ w ≤ N`
(that would be 2). -/
theorem derived_chunk_width_claim_false_at_four :
    (canonicalize ["a", "b", "c", "d"]).length = 4 ∧
    derivedChunkWidth ["a", "b", "c", "d"] = 1 ∧
    2 ^ 2 ≤ 4 ∧ ¬ (2 ≤ 1) := by decide

/-- C4, amended.  For every raw wordlist whose canonicalized size `N` is at
least 3, the derived chunk width is positive and is the largest integer `w`
with `2 ^ w < N` (strict inequality). -/
theorem derived_chunk_width_largest_lt (raw : List String)
    (h3 : 3 ≤ (canonicalize raw).length) :
    0 < derivedChunkWidth raw ∧
    2 ^ derivedChunkWidth raw < (canonicalize raw).length ∧
    ∀ w, 2 ^ w < (canonicalize raw).length → w ≤ derivedChunkWidth raw := by
  obtain ⟨c, hc1, hcN, hmin, heq⟩ := compute_chunk_size_minimal (canonicalize raw).length
  have hrw : derivedChunkWidth raw = c - 1 := heq
  have hc2 : 2 ≤ c := by
    by_contra h
    push_neg at h
    have hceq : c = 1 := by omega
    subst hceq
    norm_num at hcN
    omega
  rw [hrw]
  refine ⟨by omega, ?_, ?_⟩
  · by_contra hle
    push_neg at hle
    have := hmin (c - 1) (by omega) hle
    omega
  · intro w hw
    by_contra hgt
    push_neg at hgt
    have hcw : c ≤ w := by omega
    have hpow : 2 ^ c ≤ 2 ^ w := Nat.pow_le_pow_right (by norm_num) hcw
    omega

/-- Witness for C4's amended theorem at a concrete 5-word raw wordlist. -/
theorem derived_chunk_width_largest_lt_witness :
    0 < derivedChunkWidth ["a", "b", "c", "d", "e"] ∧
    2 ^ derivedChunkWidth ["a", "b", "c", "d", "e"] <
      (canonicalize ["a", "b", "c", "d", "e"]).length :=
  ⟨(derived_chunk_width_largest_lt ["a", "b", "c", "d", "e"] (by decide)).1,
   (derived_chunk_width_largest_lt ["a", "b", "c", "d", "e"] (by decide)).2.1⟩

/-- A number below `2 ^ k` (with `k ≥ 1`) has at most `k` binary digits. -/
theorem binDigitsF_length_le : ∀ (fuel n k : Nat), 1 ≤ k → n < 2 ^ k → n ≤ fuel →
    (binDigitsF fuel n).length ≤ k
  | 0, n, k, hk, _, _ => by simp [binDigitsF]; omega
  | fuel + 1, n, k, hk, hn, hf => by
    simp only [binDigitsF]
    split
    · simpa using hk
    · rename_i hn2
      push_neg at hn2
      have hk2 : 2 ≤ k := by
        by_contra h
        push_neg at h
        have : k = 1 := by omega
        subst this
        norm_num at hn
        omega
      have hrec : (binDigitsF fuel (n / 2)).length ≤ k - 1 := by
        refine binDigitsF_length_le fuel (n / 2) (k - 1) (by omega) ?_ (by omega)
        have h2 : 2 ^ k = 2 ^ (k - 1) * 2 := by
          rw [← Nat.pow_succ]
          congr 1
          omega
        rw [Nat.div_lt_iff_lt_mul (by norm_num), ← h2]
        exact hn
      simp only [List.length_append, List.length_cons, List.length_nil]
      omega

/-- Digit-count bound for `binDigits`. -/
theorem binDigits_length_le {n k : Nat} (hk : 1 ≤ k) (h : n < 2 ^ k) :
    (binDigits n).length ≤ k :=
  binDigitsF_length_le n n k hk h le_rfl

/-- When the digits fit, `pyFormatBin w n` has exactly width `w`. -/
theorem pyFormatBin_length {w n : Nat} (h : (binDigits n).length ≤ w) :
    (pyFormatBin w n).length = w := by
  simp only [pyFormatBin, List.length_append, List.length_replicate]
  omega

/-- An ASCII code point renders as exactly 8 bits under `format(·, '08b')`. -/
theorem pyFormatBin_length_eight {n : Nat} (h : n < 128) :
    (pyFormatBin 8 n).length = 8 :=
  pyFormatBin_length (binDigits_length_le (by norm_num) (by omega))

/-- On an all-ASCII token the scanning loop of `seed_to_human` succeeds and
produces the accumulated bits followed by each code point's 8-bit
rendering. -/
theorem bitsAux_ok : ∀ (token : List Nat) (i : Nat) (acc : List Bool),
    (∀ c ∈ token, c < 128) →
    bitsAux i acc token = .ok (acc ++ (token.map (pyFormatBin 8)).flatten)
  | [], _, acc, _ => by simp [bitsAux]
  | c :: rest, i, acc, h => by
    have hc : c < 128 := h c (by simp)
    have hrest : ∀ x ∈ rest, x < 128 := fun x hx => h x (by simp [hx])
    simp only [bitsAux, if_neg (by omega : ¬ 128 ≤ c)]
    rw [bitsAux_ok rest (i + 1) (acc ++ pyFormatBin 8 c) hrest]
    simp

/-- The flattened bitstream of an all-ASCII token has `8 * length` bits. -/
theorem flatten_bits_length (token : List Nat) (h : ∀ c ∈ token, c < 128) :
    ((token.map (pyFormatBin 8)).flatten).length = 8 * token.length := by
  induction token with
  | nil => simp
  | cons c rest ih =>
    have hc : c < 128 := h c (by simp)
    have hrest : ∀ x ∈ rest, x < 128 := fun x hx => h x (by simp [hx])
    simp only [List.map_cons, List.flatten_cons, List.length_append,
      pyFormatBin_length_eight hc, ih hrest, List.length_cons]
    ring

/-- Chunk count of `chunkify`: the ceiling of `length / cs`. -/
theorem chunkifyF_length : ∀ (fuel cs : Nat) (l : List Bool), 1 ≤ cs →
    l.length ≤ fuel → (chunkifyF fuel cs l).length = (l.length + cs - 1) / cs
  | 0, cs, l, hcs, hf => by
    have hl : l = [] := List.eq_nil_of_length_eq_zero (by omega)
    subst hl
    simp only [chunkifyF, List.length_nil, List.isEmpty_nil]
    rw [Nat.div_eq_of_lt (by omega)]
  | fuel + 1, cs, l, hcs, hf => by
    match l with
    | [] =>
      simp only [chunkifyF, List.isEmpty_nil, if_pos, List.length_nil]
      rw [Nat.div_eq_of_lt (by omega)]
    | b :: rest =>
      have hstep : chunkifyF (fuel + 1) cs (b :: rest)
          = (b :: rest).take cs :: chunkifyF fuel cs ((b :: rest).drop cs) := rfl
      have hdrop : ((b :: rest).drop cs).length = rest.length + 1 - cs := by
        simp [List.length_drop]
      have hf' : ((b :: rest).drop cs).length ≤ fuel := by
        rw [hdrop]
        simp only [List.length_cons] at hf
        omega
      rw [hstep, List.length_cons,
        chunkifyF_length fuel cs ((b :: rest).drop cs) hcs hf', hdrop, List.length_cons]
      rcases le_or_lt (rest.length + 1) cs with hle | hlt
      · have h1 : rest.length + 1 - cs = 0 := by omega
        rw [h1, Nat.div_eq_of_lt (by omega)]
        have h2 : rest.length + 1 + cs - 1 = rest.length + cs := by omega
        rw [h2, Nat.add_div_right _ (by omega), Nat.div_eq_of_lt (by omega)]
      · have h1 : rest.length + 1 - cs + cs - 1 = rest.length - cs + cs := by omega
        have h2 : rest.length + 1 + cs - 1 = rest.length + cs := by omega
        rw [h1, h2, Nat.add_div_right _ (by omega), Nat.add_div_right _ (by omega)]
        have h4 : rest.length / cs = (rest.length - cs) / cs + 1 := by
          conv_lhs => rw [(by omega : rest.length = rest.length - cs + cs)]
          rw [Nat.add_div_right _ (by omega)]
        rw [h4]

/-- Appending the padding `(cs - m % cs) % cs` does not change the ceiling
`⌈m / cs⌉` (with the padded total now exactly divisible by `cs`). -/
theorem pad_ceil (m cs : Nat) (hcs : 1 ≤ cs) :
    (m + (cs - m % cs) % cs + cs - 1) / cs = (m + cs - 1) / cs := by
  rcases eq_or_ne (m % cs) 0 with h0 | h0
  · rw [h0, Nat.sub_zero, Nat.mod_self, Nat.add_zero]
  · have hrlt : m % cs < cs := Nat.mod_lt _ (by omega)
    have hmod : (cs - m % cs) % cs = cs - m % cs := Nat.mod_eq_of_lt (by omega)
    rw [hmod]
    have hq := Nat.div_add_mod m cs
    have e1 : m + (cs - m % cs) + cs - 1 = cs * (m / cs + 1) + (cs - 1) := by
      rw [Nat.mul_add, Nat.mul_one]
      omega
    have e2 : m + cs - 1 = cs * (m / cs + 1) + (m % cs - 1) := by
      rw [Nat.mul_add, Nat.mul_one]
      omega
    rw [e1, e2, Nat.mul_add_div (by omega), Nat.mul_add_div (by omega),
      Nat.div_eq_of_lt (show cs - 1 < cs by omega),
      Nat.div_eq_of_lt (show m % cs - 1 < cs by omega)]

/-- Closed form of `seed_to_human` on an all-ASCII token. -/
theorem seed_to_human_ok (h : HRS) (token : List Nat)
    (hascii : ∀ c ∈ token, c < 128) :
    seed_to_human h token = .ok
      (h.wordlist.getD ((h.chunk_size - (8 * token.length) % h.chunk_size) % h.chunk_size) "" ::
        (chunkify h.chunk_size ((token.map (pyFormatBin 8)).flatten ++
          List.replicate ((h.chunk_size - (8 * token.length) % h.chunk_size) % h.chunk_size)
            false)).map fun ch => h.wordlist.getD (bitsToNat ch) "") := by
  have hb := bitsAux_ok token 0 [] hascii
  rw [List.nil_append] at hb
  have hlen := flatten_bits_length token hascii
  simp only [seed_to_human, hb, hlen]

/-- C7.  Word-count law: on every all-ASCII token, `seed_to_human` (self
check skipped) returns `1 + ceil(8 * len / chunk_size)` words. -/
theorem encode_word_count (h : HRS) (token : List Nat)
    (hascii : ∀ c ∈ token, c < 128) (hcs : 1 ≤ h.chunk_size) :
    ∃ ws, seed_to_human h token = .ok ws ∧
      ws.length = 1 + (8 * token.length + h.chunk_size - 1) / h.chunk_size := by
  refine ⟨_, seed_to_human_ok h token hascii, ?_⟩
  rw [List.length_cons, List.length_map, chunkify, chunkifyF_length _ _ _ hcs le_rfl,
    List.length_append, List.length_replicate, flatten_bits_length token hascii,
    pad_ceil (8 * token.length) h.chunk_size hcs]
  omega

/-- Witness for C7 at the toy codec and the one-byte token `0x41`. -/
theorem encode_word_count_witness :
    ∃ ws, seed_to_human toyCodec1 [65] = .ok ws ∧
      ws.length = 1 + (8 * [65].length + toyCodec1.chunk_size - 1) / toyCodec1.chunk_size :=
  encode_word_count toyCodec1 [65]
    (by intro c hc; simp at hc; omega) (by decide)

/-- The scanning loop of `seed_to_human` fails at the first code point
`≥ 128`, reporting the (offset) position, the value, and the bits converted
so far. -/
theorem bitsAux_error : ∀ (token : List Nat) (i : Nat) (acc : List Bool) (j : Nat),
    j < token.length → 128 ≤ token.getD j 0 → (∀ k, k < j → token.getD k 0 < 128) →
    bitsAux i acc token = .error (.nonAsciiInput (i + j) (token.getD j 0)
      (acc ++ ((token.take j).map (pyFormatBin 8)).flatten))
  | [], _, _, j, hj, _, _ => by simp at hj
  | c :: rest, i, acc, 0, _, hge, _ => by
    simp only [List.getD_cons_zero] at hge
    simp only [bitsAux, if_pos hge, List.getD_cons_zero, List.take_zero, List.map_nil,
      List.flatten_nil, List.append_nil, Nat.add_zero]
  | c :: rest, i, acc, j + 1, hj, hge, hprev => by
    have hc : c < 128 := by
      have h0 := hprev 0 (by omega)
      simpa using h0
    simp only [bitsAux, if_neg (by omega : ¬ 128 ≤ c)]
    have hrec := bitsAux_error rest (i + 1) (acc ++ pyFormatBin 8 c) j
      (by simpa using hj) (by simpa using hge)
      (fun k hk => by have hp := hprev (k + 1) (by omega); simpa using hp)
    rw [hrec]
    simp only [List.getD_cons_succ, List.take_succ_cons, List.map_cons, List.flatten_cons,
      ← List.append_assoc]
    have harith : i + 1 + j = i + (j + 1) := by omega
    rw [harith]

/-- C8.  NonAsciiInput rejection: if position `j` holds the first code
point `≥ 128`, `seed_to_human` fails with the non-ASCII error carrying
position `j`, the offending value, and the bits converted from the `j`
preceding characters. -/
theorem encode_non_ascii_rejection (h : HRS) (token : List Nat) (j : Nat)
    (hj : j < token.length) (hge : 128 ≤ token.getD j 0)
    (hprev : ∀ k, k < j → token.getD k 0 < 128) :
    seed_to_human h token = .error (.nonAsciiInput j (token.getD j 0)
      (((token.take j).map (pyFormatBin 8)).flatten)) := by
  have hb := bitsAux_error token 0 [] j hj hge hprev
  rw [List.nil_append, Nat.zero_add] at hb
  simp only [seed_to_human, hb]

/-- Witness for C8: a token whose second character is code point 200. -/
theorem encode_non_ascii_rejection_witness :
    seed_to_human toyCodec1 [65, 200, 66] = .error (.nonAsciiInput 1 ([65, 200, 66].getD 1 0)
      ((([65, 200, 66].take 1).map (pyFormatBin 8)).flatten)) :=
  encode_non_ascii_rejection toyCodec1 [65, 200, 66] 1 (by decide) (by decide)
    (fun k hk => by
      have hk0 : k = 0 := by omega
      subst hk0
      decide)

/-- C9.  Malformed decode input: fewer than 2 words gives `tooFewWords`;
at least 2 words one of which is (after `str.title()`) absent from the
wordlist gives `unknownWord`; in both cases no byte sequence is
returned. -/
theorem decode_malformed_input_rejection (h : HRS) (ws : List String) :
    (ws.length < 2 → human_to_seed h ws = .error .tooFewWords) ∧
    (2 ≤ ws.length → (∃ w ∈ ws, ¬ h.wordlist.contains (pyTitle w) = true) →
      ∃ w', human_to_seed h ws = .error (.unknownWord w')) := by
  constructor
  · intro hlt
    simp only [human_to_seed, if_pos hlt]
  · intro hge hex
    have hnotnone : (ws.map pyTitle).find? (fun w => !(h.wordlist.contains w)) ≠ none := by
      intro hnone
      rw [List.find?_eq_none] at hnone
      obtain ⟨w, hw, hnc⟩ := hex
      exact (hnone (pyTitle w) (List.mem_map_of_mem _ hw)) (by simpa using hnc)
    obtain ⟨w', hw'⟩ := Option.ne_none_iff_exists'.mp hnotnone
    refine ⟨w', ?_⟩
    simp only [human_to_seed, if_neg (by omega : ¬ ws.length < 2), hw']

/-- Witness for C9: a one-word input and an input holding a word outside
the toy wordlist. -/
theorem decode_malformed_input_rejection_witness :
    human_to_seed toyCodec1 ["A"] = .error .tooFewWords ∧
    ∃ w', human_to_seed toyCodec1 ["A", "zz"] = .error (.unknownWord w') :=
  ⟨(decode_malformed_input_rejection toyCodec1 ["A"]).1 (by decide),
   (decode_malformed_input_rejection toyCodec1 ["A", "zz"]).2 (by decide)
     ⟨"zz", by decide, by decide⟩⟩

/-- C6, counterexample.  An accepted word sequence of the toy codec whose
bit count after the padding slice is 3, not a multiple of 8: decode
(verification skipped) returns the byte `0` parsed from the 3-bit group
instead of failing — no `MalformedBitstream` check exists in the code. -/
theorem decode_partial_group_returns_bytes :
    (pySliceNeg (dataBits toyCodec2 ["A", "A"]) 1).length % 8 ≠ 0 ∧
    human_to_seed toyCodec2 ["B", "A", "A"] = .ok [0] := by decide

/-- C6, amended.  Decode performs no multiple-of-8 bit-count check: every
word sequence passing the three guards (at least 2 words, all words known
after `str.title()`, first-word index `< 64`) decodes to SOME byte
sequence, even when the bit count remaining after the padding slice is not
a multiple of 8 (a trailing partial group is parsed as one more byte). -/
theorem decode_no_bitcount_check (h : HRS) (ws : List String)
    (hlen : 2 ≤ ws.length)
    (hknown : ∀ w ∈ ws, h.wordlist.contains (pyTitle w) = true)
    (hpad : h.wordlist.indexOf (pyTitle (ws.headD "")) < 64)
    (hnot8 : ¬ 8 ∣ (pySliceNeg (dataBits h ((ws.map pyTitle).tail))
      (h.wordlist.indexOf (pyTitle (ws.headD "")))).length) :
    ∃ t, human_to_seed h ws = .ok t := by
  have hfind : (ws.map pyTitle).find? (fun w => !(h.wordlist.contains w)) = none := by
    rw [List.find?_eq_none]
    intro x hx
    obtain ⟨w, hw, rfl⟩ := List.mem_map.mp hx
    simpa using hknown w hw
  have hhead : (ws.map pyTitle).headD "" = pyTitle (ws.headD "") := by
    cases ws with
    | nil => simp at hlen
    | cons a l => simp
  have hmain : human_to_seed h ws = .ok
      ((chunkify 8 (pySliceNeg (dataBits h ((ws.map pyTitle).tail))
        (h.wordlist.indexOf (pyTitle (ws.headD ""))))).map bitsToNat) := by
    simp only [human_to_seed, if_neg (by omega : ¬ ws.length < 2), hfind, hhead,
      if_neg (by omega : ¬ 64 ≤ h.wordlist.indexOf (pyTitle (ws.headD "")))]
  exact ⟨_, hmain⟩

/-- Witness for C6's amended theorem at the 3-remaining-bits input. -/
theorem decode_no_bitcount_check_witness :
    ∃ t, human_to_seed toyCodec2 ["B", "A", "A"] = .ok t :=
  decode_no_bitcount_check toyCodec2 ["B", "A", "A"]
    (by decide) (by decide) (by decide) (by decide)

/-- C3, counterexample.  Encoding the empty token with the toy codec gives
exactly the one marker word at index 0, but decoding that one-word output
fails with `tooFewWords` — it does NOT recover the empty byte sequence. -/
theorem decode_of_empty_encoding_fails :
    seed_to_human toyCodec1 [] = .ok ["A"] ∧
    human_to_seed toyCodec1 ["A"] = .error .tooFewWords ∧
    (Except.error .tooFewWords : Except CodecError (List Nat)) ≠ .ok [] := by decide

/-- C3, amended.  For every codec whose wordlist starts with some word `w`,
encoding the zero-length token (self-check skipped) computes padding length
0 from the empty bitstream and returns exactly the one padding-marker word
`w` (ordinal index 0); decoding that one-word output fails with
`tooFewWords` instead of recovering the empty byte sequence. -/
theorem empty_input_marker_only (h : HRS) (w : String) (rest : List String)
    (hw : h.wordlist = w :: rest) :
    seed_to_human h [] = .ok [w] ∧ human_to_seed h [w] = .error .tooFewWords := by
  constructor
  · have hok := seed_to_human_ok h [] (by simp)
    simp only [List.length_nil, Nat.mul_zero, Nat.zero_mod, Nat.sub_zero, Nat.mod_self,
      List.map_nil, List.flatten_nil, List.replicate_zero, List.append_nil, hw,
      List.getD_cons_zero] at hok
    exact hok
  · rfl

/-- Witness for C3's amended theorem at the toy codec. -/
theorem empty_input_marker_only_witness :
    seed_to_human toyCodec1 [] = .ok ["A"] ∧
    human_to_seed toyCodec1 ["A"] = .error .tooFewWords :=
  empty_input_marker_only toyCodec1 "A" ["B", "C", "D"] rfl

/-- C1.  Round-trip failure at padding length 0: with the spec's own toy
codec (4 words, chunk width 1) the byte `0x41` encodes to 9 words whose
padding marker has index 0, and decoding them yields the EMPTY token — the
`all_bits[:-padding_length]` slice with `padding_length = 0` is Python's
`[:0]` and discards every bit, so `decode(encode(b)) ≠ b`. -/
theorem roundtrip_fails_at_zero_padding :
    seed_to_human toyCodec1 [65] = .ok ["A", "A", "B", "A", "A", "A", "A", "A", "B"] ∧
    human_to_seed toyCodec1 ["A", "A", "B", "A", "A", "A", "A", "A", "B"] = .ok [] ∧
    ([] : List Nat) ≠ [65] := by decide

/-- C2.  Padding-removal failure at `p = 0`: decoding an accepted sequence
whose first word has index 0 concatenates 8 data bits, but the
`[:-0]` slice removes ALL of them (not none), so decode returns the empty
byte sequence instead of the byte those bits encode. -/
theorem decode_zero_padding_drops_all_bits :
    dataBits toyCodec2 ["B", "B", "B", "B"] =
      [false, true, false, true, false, true, false, true] ∧
    pySliceNeg [false, true, false, true, false, true, false, true] 0 = [] ∧
    human_to_seed toyCodec2 ["A", "B", "B", "B", "B"] = .ok [] := by decide

/-- C10.  Decode is not injective: two distinct word sequences of the toy
codec, both made of wordlist words and sharing the padding-marker word
`"C"` (index 2), decode to the same byte sequence, because the two dropped
padding bits are never checked to be zero. -/
theorem decode_not_injective :
    human_to_seed toyCodec2 ["C", "A", "A", "A", "A", "A"] = .ok [0] ∧
    human_to_seed toyCodec2 ["C", "A", "A", "A", "A", "B"] = .ok [0] ∧
    ["C", "A", "A", "A", "A", "A"] ≠ ["C", "A", "A", "A", "A", "B"] ∧
    (∀ w ∈ ["C", "A", "A", "A", "A", "A"], w ∈ toyCodec2.wordlist) ∧
    (∀ w ∈ ["C", "A", "A", "A", "A", "B"], w ∈ toyCodec2.wordlist) := by decide
